import Mathlib

/-!
Verification of the partitioning library: the function parts (parts/parts.py)
splitting a sequence into parts by count, length, or a list of lengths, and the
function products (products/products.py) splitting a Cartesian product into
disjoint lazily generated subsets.

Sized-sliceable inputs are modelled as Lean lists; a pull-only input is
modelled by the list of elements its cursor will yield.  Python integers are
modelled as Int where sign matters (the number and single-length parameters)
and as Nat where the library contract is whole numbers (length-list entries).
-/

namespace PartsLib

/-- Python slice xs[i:j] for nonnegative bounds i, j: drop i elements, then
take j - i (truncated Nat subtraction gives the empty slice when j is at or
below i, matching Python). -/
def pySlice {α : Type} (xs : List α) (i j : Nat) : List α :=
  (xs.drop i).take (j - i)

/-- Sized branch of the helper function between lines 37 and 50 of parts.py:
the expression xs[lower : min(len(xs), upper)]. -/
def sliceSized {α : Type} (xs : List α) (lower upper : Nat) : List α :=
  pySlice xs lower (min xs.length upper)

/-- Errors raised by parts: a Python TypeError or ValueError with its message. -/
inductive PError where
  | typeErr (msg : String)
  | valueErr (msg : String)
deriving DecidableEq, Repr

def numberMsg : String := "number parameter must be an integer"

def lenIterMsg : String := "length parameter must be an integer or iterable of integers"

def lenListMsg : String := "length parameter must be an integer or list of integers"

def needLenNumberMsg : String :=
  "object must have length to determine part lengths from number parameter"

def needLenCombinedMsg : String :=
  "object must have length to determine if number of parts having specified length(s) can be retrieved"

def tooFewMsg : String :=
  "object has too few items to retrieve parts having specified part lengths"

def tooManyMsg : String :=
  "object has too many items to retrieve parts having specified part lengths"

def mismatchMsg : String := "number parameter does not match number of specified part lengths"

def missingMsg : String := "missing number of parts parameter and part length(s) parameter"

def cannotMsg (number length : Int) : String :=
  "cannot retrieve " ++ toString number ++
    " parts from object given part length parameter of " ++ toString length

/-- Entry of a length list: a whole number, or a value of some other type
(such as a float), which trips the per-entry isinstance check. -/
inductive Entry where
  | int (n : Nat)
  | other
deriving DecidableEq, Repr

/-- Boolean test used to model the all(isinstance(l, int) for l in length) check. -/
def Entry.isOther : Entry → Bool
  | .int _ => false
  | .other => true

/-- Loop of mode A (number given, length absent; lines 351 to 359 of parts.py).
State: number parts still to produce, current index i, and the slice length
computed for the next part.  Each step decrements number; when it reaches zero
the rest of the input xs[i:] is the final part, otherwise xs[i:i+length] is
yielded and length is recomputed as (len_ - i) // number from the new state. -/
def modeALoop {α : Type} (xs : List α) (len_ : Nat) : Nat → Nat → Nat → List (List α)
  | 0, _, _ => []
  | number + 1, i, length =>
    if i < len_ then
      if number = 0 then
        [xs.drop i]
      else
        pySlice xs i (i + length) ::
          modeALoop xs len_ number (i + length) ((len_ - (i + length)) / number)
    else []

/-- Mode A of parts (lines 338 to 359): number is clamped to
max(1, min(len_, number)) and the balanced loop runs with the initial slice
length len_ // number. -/
def partsNumber {α : Type} (xs : List α) (number : Int) : List (List α) :=
  let len_ : Nat := xs.length
  let n : Nat := (max 1 (min (len_ : Int) number)).toNat
  modeALoop xs len_ n 0 (len_ / n)

/-- Loop of mode B on a sized input (lines 362 to 374): slice the clamped
length from the current index, probe the part for emptiness by its length,
stop on the first empty probe, otherwise yield and advance. -/
def modeBLoop {α : Type} (xs : List α) (length : Nat) (index : Nat) : List (List α) :=
  let part := sliceSized xs index (index + length)
  if h : part.isEmpty then []
  else part :: modeBLoop xs length (index + length)
termination_by xs.length - index
decreasing_by
  rw [List.isEmpty_iff] at h
  have h1 : (xs.drop index).take (min xs.length (index + length) - index) ≠ [] := h
  rw [Ne, List.take_eq_nil_iff, not_or] at h1
  have h2 : index < xs.length := by
    rcases Nat.lt_or_ge index xs.length with hlt | hge
    · exact hlt
    · exact absurd (List.drop_eq_nil_iff.mpr hge) h1.2
  have h3 : 0 < length := by omega
  omega

/-- Mode B of parts (number absent, single integer length): the length is
clamped to at least 1 and the probing loop runs from index 0. -/
def partsLen {α : Type} (xs : List α) (length : Int) : List (List α) :=
  modeBLoop xs (max 1 length).toNat 0

/-- Loop of mode C on a sized input (lines 376 to 400): consume the length
entries one at a time; a non-integer entry raises the invalid-type error, an
empty probe while entries remain raises the insufficient-elements error, and
exhaustion of the entries ends production without error.  The result pairs
the parts yielded before any error with the error, if one was raised. -/
def modeCLoop {α : Type} (xs : List α) : List Entry → Nat → List (List α) × Option PError
  | [], _ => ([], none)
  | .other :: _, _ => ([], some (.typeErr lenIterMsg))
  | .int n :: rest, index =>
    let part := sliceSized xs index (index + n)
    if part.isEmpty then ([], some (.valueErr tooFewMsg))
    else
      let r := modeCLoop xs rest (index + n)
      (part :: r.1, r.2)

/-- Iteration list of Python range(0, stop, step) for step at least 1,
computed with the structural fuel stop: since every iteration advances i by
step, which is at least 1 at every call site (the length is clamped), stop
iterations always suffice and the fuel is never exhausted. -/
def pyRangeFuel (stop step : Nat) : Nat → Nat → List Nat
  | 0, _ => []
  | fuel + 1, i => if i < stop then i :: pyRangeFuel stop step fuel (i + step) else []

def pyRange (stop step : Nat) : List Nat :=
  pyRangeFuel stop step stop 0

/-- Mode D of parts with a single integer length (lines 411 to 419): clamp the
length to at least 1, test the feasibility condition, and on success yield
xs[i:i+length] for i in range(0, len_, length). -/
def modeDInt {α : Type} (xs : List α) (number : Int) (length : Int) :
    Except PError (List (List α)) :=
  let len_ : Int := xs.length
  let l : Int := max 1 length
  if len_ > l * number ∨ len_ ≤ l * (number - 1) then
    .error (.valueErr (cannotMsg number length))
  else
    .ok ((pyRange xs.length l.toNat).map (fun i => pySlice xs i (i + l.toNat)))

/-- Loop of mode D with a list of lengths (lines 443 to 452): slice each
listed length in turn, with no emptiness probing. -/
def modeDListLoop {α : Type} (xs : List α) : List Nat → Nat → List (List α)
  | [], _ => []
  | n :: rest, index => sliceSized xs index (index + n) :: modeDListLoop xs rest (index + n)

/-- Mode D of parts with a list of whole-number lengths (lines 425 to 452):
the list must have exactly number entries, the sum of all entries but the last
must be strictly below len_, the sum of all entries must reach len_, and then
the listed slices are yielded. -/
def modeDList {α : Type} (xs : List α) (number : Int) (lengths : List Nat) :
    Except PError (List (List α)) :=
  if (lengths.length : Int) ≠ number then
    .error (.valueErr mismatchMsg)
  else if xs.length ≤ lengths.dropLast.sum then
    .error (.valueErr tooFewMsg)
  else if lengths.sum < xs.length then
    .error (.valueErr tooManyMsg)
  else
    .ok (modeDListLoop xs lengths 0)

/-- Pull of one element from a pull-only cursor: the next element and the
advanced cursor, or exhaustion. -/
def nextPull {α : Type} : List α → Option (α × List α)
  | [] => none
  | x :: rest => some (x, rest)

/-- Emptiness probe of the helper between lines 10 and 35 of parts.py on a
pull-only input: pull one element; on exhaustion report empty, otherwise
prepend the pulled element back onto the cursor (chain([x], xs)) and report
nonempty. -/
def emptyPull {α : Type} (xs : List α) : List α × Bool :=
  match nextPull xs with
  | none => (xs, true)
  | some (x, rest) => (x :: rest, false)

/-- Mode B on a pull-only input, with parts consumed in production order:
each part is the next block of the clamped length pulled off the shared
cursor, until the probe finds the cursor exhausted.  The clamped length is
at least 1 at the call site, so the step is never 0. -/
def modeBPull {α : Type} (length : Nat) (xs : List α) : List (List α) :=
  if _h : xs.isEmpty ∨ length = 0 then []
  else xs.take length :: modeBPull length (xs.drop length)
termination_by xs.length
decreasing_by
  simp only [List.isEmpty_iff] at _h
  push_neg at _h
  have : xs.length ≠ 0 := fun hl => _h.1 (List.length_eq_zero.mp hl)
  simp only [List.length_drop]
  omega

/-- Mode C on a pull-only input, with parts consumed in production order:
each listed length takes the next block off the shared cursor; the probe of a
part is empty exactly when the cursor is exhausted or the entry is 0. -/
def modeCPull {α : Type} : List Entry → List α → List (List α) × Option PError
  | [], _ => ([], none)
  | .other :: _, _ => ([], some (.typeErr lenIterMsg))
  | .int n :: rest, xs =>
    if xs.isEmpty ∨ n = 0 then ([], some (.valueErr tooFewMsg))
    else
      let r := modeCPull rest (xs.drop n)
      (xs.take n :: r.1, r.2)

/-- Input of a call to parts: sized-sliceable (length and slices available) or
pull-only (no knowable length). -/
inductive Input (α : Type) where
  | sized (xs : List α)
  | pull (xs : List α)

/-- Number argument of a call to parts: absent, an integer, or a value of some
other type (such as a float). -/
inductive NumberArg where
  | noneN
  | intN (n : Int)
  | otherN

/-- Length argument of a call to parts: absent, an integer, an iterable of
entries (modelled as a list, the only iterable kind the claims exercise; a
non-list iterable would additionally trip the isinstance list check of the
combined mode), or a value that is neither an integer nor iterable (such as
a float). -/
inductive LengthArg where
  | noneL
  | intL (n : Int)
  | listL (entries : List Entry)
  | otherL

/-- Call of parts (lines 329 to 455): validate the number argument, validate
the length argument, then dispatch on which arguments are present, with
pull-only inputs rejected wherever a length is required.  The result pairs
the parts produced before any error with the error, if one was raised. -/
def partsCall {α : Type} (inp : Input α) (number : NumberArg) (length : LengthArg) :
    List (List α) × Option PError :=
  match number, length with
  | .otherN, _ => ([], some (.typeErr numberMsg))
  | _, .otherL => ([], some (.typeErr lenIterMsg))
  | .intN n, .noneL =>
    match inp with
    | .sized xs => (partsNumber xs n, none)
    | .pull _ => ([], some (.typeErr needLenNumberMsg))
  | .noneN, .intL l =>
    match inp with
    | .sized xs => (partsLen xs l, none)
    | .pull xs => (modeBPull (max 1 l).toNat xs, none)
  | .noneN, .listL entries =>
    match inp with
    | .sized xs => modeCLoop xs entries 0
    | .pull xs => modeCPull entries xs
  | .intN n, .intL l =>
    match inp with
    | .sized xs =>
      match modeDInt xs n l with
      | .ok ps => (ps, none)
      | .error e => ([], some e)
    | .pull _ => ([], some (.typeErr needLenCombinedMsg))
  | .intN n, .listL entries =>
    match inp with
    | .sized xs =>
      if entries.any Entry.isOther then ([], some (.typeErr lenListMsg))
      else
        match modeDList xs n (entries.filterMap (fun e => match e with
          | .int m => some m
          | .other => none)) with
        | .ok ps => (ps, none)
        | .error e => ([], some e)
    | .pull _ => ([], some (.typeErr needLenCombinedMsg))
  | .noneN, .noneL => ([], some (.valueErr missingMsg))

/-- Cartesian product of a list of factor collections in the order produced by
itertools.product: tuples are lists with one element from each factor, the
last factor varying fastest. -/
def pyProduct {α : Type} : List (List α) → List (List α)
  | [] => [[]]
  | f :: fs => f.flatMap (fun x => (pyProduct fs).map (fun t => x :: t))

/-- Loop of products (lines 136 to 142 of products.py): scan the factors,
multiplying their sizes into the running count; break with min(flen, i + 1)
at the first prefix whose cumulative size reaches number, and fall back to
flen (the total number of factors) when no prefix does. -/
def prefixIndexLoop {α : Type} (number flen : Nat) : List (List α) → Nat → Nat → Nat
  | [], _, _ => flen
  | a :: rest, acc, i =>
    let acc1 := acc * a.length
    if number ≤ acc1 then min flen (i + 1)
    else prefixIndexLoop number flen rest acc1 (i + 1)

def prefixIndex {α : Type} (factors : List (List α)) (number : Nat) : Nat :=
  prefixIndexLoop number factors.length factors 1 0

/-- Call of products (lines 114 to 154 of products.py) for a positive number
of requested subsets, with argument validation already passed: one partition
holding the whole product when number is 1; otherwise the product of the
chosen factor prefix is materialized, split into number near-balanced chunks
by parts, and every prefix tuple of a chunk is concatenated with each tuple
of the product of the remaining factors. -/
def products {α : Type} (factors : List (List α)) (number : Nat) : List (List (List α)) :=
  if number = 1 then [pyProduct factors]
  else
    let index := prefixIndex factors number
    let prefixes := partsNumber (pyProduct (factors.take index)) (number : Int)
    prefixes.map (fun pre =>
      pre.flatMap (fun p => (pyProduct (factors.drop index)).map (fun s => p ++ s)))

/-! Helper lemmas about slicing. -/

theorem take_min_length {α : Type} (l : List α) (n : Nat) :
    l.take (min l.length n) = l.take n := by
  rcases Nat.le_total l.length n with h | h
  · rw [Nat.min_eq_left h, List.take_length, List.take_of_length_le h]
  · rw [Nat.min_eq_right h]

theorem pySlice_eq_take {α : Type} (xs : List α) (i n : Nat) :
    pySlice xs i (i + n) = (xs.drop i).take n := by
  unfold pySlice
  congr 1
  omega

theorem sliceSized_eq_take {α : Type} (xs : List α) (i n : Nat) :
    sliceSized xs i (i + n) = (xs.drop i).take n := by
  unfold sliceSized pySlice
  have h1 : min xs.length (i + n) - i = min (xs.drop i).length n := by
    rw [List.length_drop]
    omega
  rw [h1, take_min_length]

/-! Invariants of the mode A loop: with m + 1 parts still to produce and at
least m + 1 elements remaining, the loop produces exactly m + 1 parts whose
concatenation is the rest of the input, every part length lies between the
floor and the ceiling of remaining / parts, and part lengths never decrease. -/

theorem modeALoop_spec {α : Type} (xs : List α) :
    ∀ m i : Nat, m + 1 ≤ xs.length - i →
    (modeALoop xs xs.length (m + 1) i ((xs.length - i) / (m + 1))).length = m + 1 ∧
    (modeALoop xs xs.length (m + 1) i ((xs.length - i) / (m + 1))).flatten = xs.drop i ∧
    (∀ p ∈ modeALoop xs xs.length (m + 1) i ((xs.length - i) / (m + 1)),
      (xs.length - i) / (m + 1) ≤ p.length ∧
      p.length ≤ (xs.length - i) / (m + 1) +
        (if (xs.length - i) % (m + 1) = 0 then 0 else 1)) ∧
    List.Pairwise (fun p q => p.length ≤ q.length)
      (modeALoop xs xs.length (m + 1) i ((xs.length - i) / (m + 1))) := by
  intro m
  induction m with
  | zero =>
    intro i hrem
    have hi : i < xs.length := by omega
    have hstep : modeALoop xs xs.length (0 + 1) i ((xs.length - i) / (0 + 1)) =
        [xs.drop i] := by
      simp [modeALoop, hi]
    rw [hstep]
    refine ⟨rfl, by simp, ?_, by simp⟩
    intro p hp
    rw [List.mem_singleton] at hp
    subst hp
    rw [List.length_drop]
    refine ⟨by omega, ?_⟩
    split <;> omega
  | succ s ih =>
    intro i hrem
    have hi : i < xs.length := by omega
    obtain ⟨q, hqdef⟩ : ∃ q, q = (xs.length - i) / (s + 1 + 1) := ⟨_, rfl⟩
    obtain ⟨sr, hsrdef⟩ : ∃ sr, sr = (xs.length - i) % (s + 1 + 1) := ⟨_, rfl⟩
    rw [← hqdef, ← hsrdef]
    have hq : (s + 1 + 1) * q + sr = xs.length - i := by
      rw [hqdef, hsrdef]
      exact Nat.div_add_mod _ _
    have hsr : sr < s + 1 + 1 := by
      rw [hsrdef]
      exact Nat.mod_lt _ (by omega)
    have h1q : 1 ≤ q := by
      rw [hqdef]
      exact (Nat.one_le_div_iff (by omega)).mpr (by omega)
    have hmul1 : (s + 1 + 1) * q = (s + 1) * q + q := by ring
    have hmulc : (s + 1) * q = q * (s + 1) := Nat.mul_comm _ _
    have hqler : q ≤ xs.length - i := by
      have h2 : q ≤ (s + 1 + 1) * q := Nat.le_mul_of_pos_left q (by omega)
      omega
    have hiq : i + q ≤ xs.length := by omega
    have hrem1 : s + 1 ≤ xs.length - (i + q) := by
      have h3 : s + 1 ≤ (s + 1) * q := Nat.le_mul_of_pos_right (s + 1) (by omega)
      omega
    have hdiv : (xs.length - (i + q)) / (s + 1) = sr / (s + 1) + q := by
      have hform : xs.length - (i + q) = sr + (s + 1) * q := by omega
      rw [hform, Nat.add_mul_div_left _ _ (by omega)]
    have hmod : (xs.length - (i + q)) % (s + 1) = sr % (s + 1) := by
      have hform : xs.length - (i + q) = sr + q * (s + 1) := by omega
      rw [hform, Nat.add_mul_mod_self_right]
    obtain ⟨ihlen, ihjoin, ihbnd, ihpw⟩ := ih (i + q) hrem1
    have hstep : modeALoop xs xs.length (s + 1 + 1) i q =
        pySlice xs i (i + q) ::
          modeALoop xs xs.length (s + 1) (i + q) ((xs.length - (i + q)) / (s + 1)) := by
      simp only [modeALoop]
      rw [if_pos hi, if_neg (by omega)]
    have hhead : pySlice xs i (i + q) = (xs.drop i).take q := pySlice_eq_take xs i q
    have hheadlen : (pySlice xs i (i + q)).length = q := by
      rw [hhead, List.length_take, List.length_drop]
      omega
    have hlow : ∀ p ∈ modeALoop xs xs.length (s + 1) (i + q) ((xs.length - (i + q)) / (s + 1)),
        q ≤ p.length := by
      intro p hp
      have h4 := (ihbnd p hp).1
      rw [hdiv] at h4
      exact le_trans (Nat.le_add_left _ _) h4
    rw [hstep]
    refine ⟨?_, ?_, ?_, ?_⟩
    · simp [ihlen]
    · rw [List.flatten_cons, ihjoin, hhead]
      have h5 : xs.drop (i + q) = (xs.drop i).drop q := by
        rw [List.drop_drop]
      rw [h5, List.take_append_drop]
    · intro p hp
      rcases List.mem_cons.mp hp with hp | hp
      · subst hp
        rw [hheadlen]
        exact ⟨Nat.le_refl _, Nat.le_add_right _ _⟩
      · have h6 := (ihbnd p hp).2
        rw [hdiv, hmod] at h6
        refine ⟨hlow p hp, ?_⟩
        rcases Nat.lt_or_ge sr (s + 1) with hc | hc
        · rw [Nat.div_eq_of_lt hc, Nat.mod_eq_of_lt hc] at h6
          by_cases hz : sr = 0
          · rw [if_pos hz] at h6 ⊢
            omega
          · rw [if_neg hz] at h6 ⊢
            omega
        · have hc2 : sr = s + 1 := by omega
          rw [hc2, Nat.div_self (by omega), Nat.mod_self] at h6
          norm_num at h6
          rw [if_neg (show ¬ sr = 0 by omega)]
          omega
    · rw [List.pairwise_cons]
      refine ⟨?_, ihpw⟩
      intro p hp
      rw [hheadlen]
      exact hlow p hp

/-! Consequences for partsNumber, the whole of mode A. -/

theorem clamp_bounds (len : Nat) (k : Int) (hlen : 1 ≤ len) :
    1 ≤ (max 1 (min (len : Int) k)).toNat ∧ (max 1 (min (len : Int) k)).toNat ≤ len := by
  rcases le_total k (len : Int) with h | h
  · rw [min_eq_right h]
    rcases le_total k 1 with h2 | h2
    · rw [max_eq_left h2]
      omega
    · rw [max_eq_right h2]
      omega
  · rw [min_eq_left h, max_eq_right (by exact_mod_cast hlen)]
    omega

theorem partsNumber_eq {α : Type} (xs : List α) (k : Int) :
    partsNumber xs k = modeALoop xs xs.length ((max 1 (min (xs.length : Int) k)).toNat) 0
      (xs.length / (max 1 (min (xs.length : Int) k)).toNat) := rfl

theorem modeALoop_zero_len {α : Type} (xs : List α) (n i l : Nat) :
    modeALoop xs 0 n i l = [] := by
  cases n with
  | zero => rfl
  | succ m => simp [modeALoop]

theorem partsNumber_nil {α : Type} (k : Int) : partsNumber ([] : List α) k = [] := by
  rw [partsNumber_eq]
  simp only [List.length_nil]
  exact modeALoop_zero_len _ _ _ _

theorem partsNumber_spec {α : Type} (xs : List α) (k : Int) (hne : xs ≠ []) :
    (partsNumber xs k).length = (max 1 (min (xs.length : Int) k)).toNat ∧
    (partsNumber xs k).flatten = xs ∧
    (∀ p ∈ partsNumber xs k, p ≠ []) ∧
    List.Pairwise (fun p q => p.length ≤ q.length ∧ q.length ≤ p.length + 1)
      (partsNumber xs k) := by
  have hlen : 1 ≤ xs.length := List.length_pos.mpr hne
  obtain ⟨hn1, hn2⟩ := clamp_bounds xs.length k hlen
  obtain ⟨m, hm⟩ : ∃ m, (max 1 (min ((xs.length : Nat) : Int) k)).toNat = m + 1 :=
    ⟨(max 1 (min ((xs.length : Nat) : Int) k)).toNat - 1, by omega⟩
  have hsub : xs.length - 0 = xs.length := Nat.sub_zero _
  obtain ⟨slen, sjoin, sbnd, spw⟩ := modeALoop_spec xs m 0 (by omega)
  rw [hsub] at slen sjoin sbnd spw
  have heq : partsNumber xs k = modeALoop xs xs.length (m + 1) 0 (xs.length / (m + 1)) := by
    rw [partsNumber_eq, hm]
  rw [heq]
  have hlo : 1 ≤ xs.length / (m + 1) := (Nat.one_le_div_iff (by omega)).mpr (by omega)
  refine ⟨by rw [slen, hm], by rw [sjoin, List.drop_zero], ?_, ?_⟩
  · intro p hp
    have hb := (sbnd p hp).1
    exact List.ne_nil_of_length_pos (by omega)
  · refine List.Pairwise.imp_of_mem ?_ spw
    intro p r hp hr hle
    have hbp := sbnd p hp
    have hbr := sbnd r hr
    refine ⟨hle, ?_⟩
    rcases hbp with ⟨hbp1, _⟩
    rcases hbr with ⟨_, hbr2⟩
    have hup : r.length ≤ xs.length / (m + 1) + 1 := by
      split at hbr2 <;> omega
    omega

theorem partsNumber_flatten {α : Type} (xs : List α) (k : Int) :
    (partsNumber xs k).flatten = xs := by
  rcases eq_or_ne xs [] with h | h
  · subst h
    rw [partsNumber_nil]
    rfl
  · exact (partsNumber_spec xs k h).2.1

/-! Mode B: the probing loop covers the input exactly. -/

theorem modeBLoop_flatten {α : Type} (xs : List α) (l : Nat) (hl : 0 < l) :
    ∀ n i, xs.length - i ≤ n → (modeBLoop xs l i).flatten = xs.drop i := by
  intro n
  induction n with
  | zero =>
    intro i h
    have hdrop : xs.drop i = [] := List.drop_eq_nil_iff.mpr (by omega)
    have hpart : sliceSized xs i (i + l) = [] := by
      rw [sliceSized_eq_take, hdrop, List.take_nil]
    rw [modeBLoop]
    simp [hpart, hdrop]
  | succ n ih =>
    intro i h
    by_cases hp : sliceSized xs i (i + l) = []
    · have hdrop : xs.drop i = [] := by
        have h1 : (xs.drop i).take l = [] := by rw [← sliceSized_eq_take]; exact hp
        rcases List.take_eq_nil_iff.mp h1 with h2 | h2
        · omega
        · exact h2
      rw [modeBLoop]
      simp [hp, hdrop]
    · have hi : i < xs.length := by
        by_contra hge
        have : xs.drop i = [] := List.drop_eq_nil_iff.mpr (by omega)
        rw [sliceSized_eq_take, this, List.take_nil] at hp
        exact hp rfl
      have hstep : modeBLoop xs l i =
          sliceSized xs i (i + l) :: modeBLoop xs l (i + l) := by
        rw [modeBLoop]
        simp [hp]
      rw [hstep, List.flatten_cons, ih (i + l) (by omega), sliceSized_eq_take]
      have h5 : xs.drop (i + l) = (xs.drop i).drop l := by rw [List.drop_drop]
      rw [h5, List.take_append_drop]

theorem partsLen_flatten {α : Type} (xs : List α) (l : Int) :
    (partsLen xs l).flatten = xs := by
  have hpos : 0 < (max 1 l).toNat := by
    have := le_max_left 1 l
    omega
  have h := modeBLoop_flatten xs (max 1 l).toNat hpos xs.length 0 (by omega)
  rw [List.drop_zero] at h
  exact h

/-! Mode C: production without error covers exactly the sum of the listed
lengths, and the insufficient-elements error is raised exactly when a probe
comes up empty while entries remain. -/

theorem modeCLoop_none_flatten {α : Type} (xs : List α) :
    ∀ (L : List Nat) (idx : Nat),
      (modeCLoop xs (L.map Entry.int) idx).2 = none →
      (modeCLoop xs (L.map Entry.int) idx).1.flatten = (xs.drop idx).take L.sum := by
  intro L
  induction L with
  | nil =>
    intro idx _
    simp [modeCLoop]
  | cons m rest ih =>
    intro idx herr
    rw [List.map_cons] at herr ⊢
    by_cases hp : (sliceSized xs idx (idx + m)).isEmpty
    · rw [show modeCLoop xs (Entry.int m :: rest.map Entry.int) idx =
          ([], some (.valueErr tooFewMsg)) by simp [modeCLoop, hp]] at herr
      simp at herr
    · have hstep : modeCLoop xs (Entry.int m :: rest.map Entry.int) idx =
          (sliceSized xs idx (idx + m) :: (modeCLoop xs (rest.map Entry.int) (idx + m)).1,
            (modeCLoop xs (rest.map Entry.int) (idx + m)).2) := by
        simp [modeCLoop, hp]
      rw [hstep] at herr ⊢
      have hrec := ih (idx + m) herr
      simp only [List.flatten_cons, hrec, sliceSized_eq_take, List.sum_cons]
      rw [List.take_add]
      have h5 : xs.drop (idx + m) = (xs.drop idx).drop m := by rw [List.drop_drop]
      rw [h5]

theorem modeCLoop_err_iff {α : Type} (xs : List α) :
    ∀ (L : List Nat) (idx : Nat),
      (modeCLoop xs (L.map Entry.int) idx).2 = some (.valueErr tooFewMsg) ↔
        ∃ j, j < L.length ∧ (xs.length ≤ idx + (L.take j).sum ∨ L.getD j 0 = 0) := by
  intro L
  induction L with
  | nil =>
    intro idx
    simp [modeCLoop]
  | cons m rest ih =>
    intro idx
    rw [List.map_cons]
    have hempt : (sliceSized xs idx (idx + m)).isEmpty = true ↔
        (m = 0 ∨ xs.length ≤ idx) := by
      rw [List.isEmpty_iff, sliceSized_eq_take, List.take_eq_nil_iff,
        List.drop_eq_nil_iff]
    by_cases hp : (sliceSized xs idx (idx + m)).isEmpty
    · rw [show modeCLoop xs (Entry.int m :: rest.map Entry.int) idx =
          ([], some (.valueErr tooFewMsg)) by simp [modeCLoop, hp]]
      simp only [true_iff]
      refine ⟨0, by simp, ?_⟩
      rcases hempt.mp hp with h | h
      · right
        simpa using h
      · left
        simpa using h
    · have hstep : modeCLoop xs (Entry.int m :: rest.map Entry.int) idx =
          (sliceSized xs idx (idx + m) :: (modeCLoop xs (rest.map Entry.int) (idx + m)).1,
            (modeCLoop xs (rest.map Entry.int) (idx + m)).2) := by
        simp [modeCLoop, hp]
      rw [hstep]
      have hnem : ¬ (m = 0 ∨ xs.length ≤ idx) := fun hc => hp (hempt.mpr hc)
      push_neg at hnem
      rw [ih (idx + m)]
      constructor
      · rintro ⟨j, hj, hc⟩
        refine ⟨j + 1, by simpa using hj, ?_⟩
        rcases hc with hc | hc
        · left
          rw [List.take_succ_cons, List.sum_cons]
          omega
        · right
          rw [List.getD_cons_succ]
          exact hc
      · rintro ⟨j, hj, hc⟩
        cases j with
        | zero =>
          exfalso
          rcases hc with hc | hc
          · simp only [List.take_zero, List.sum_nil, Nat.add_zero] at hc
            omega
          · rw [List.getD_cons_zero] at hc
            exact hnem.1 hc
        | succ j =>
          refine ⟨j, by simpa using hj, ?_⟩
          rcases hc with hc | hc
          · left
            rw [List.take_succ_cons, List.sum_cons] at hc
            omega
          · right
            rw [List.getD_cons_succ] at hc
            exact hc

theorem modeCLoop_reach_other {α : Type} (xs : List α) :
    ∀ (pre : List Nat) (rest : List Entry) (idx : Nat),
      (∀ j, j < pre.length → idx + (pre.take j).sum < xs.length ∧ pre.getD j 0 ≠ 0) →
      (modeCLoop xs (pre.map Entry.int ++ Entry.other :: rest) idx).2 =
        some (.typeErr lenIterMsg) := by
  intro pre
  induction pre with
  | nil =>
    intro rest idx _
    simp [modeCLoop]
  | cons m pre ih =>
    intro rest idx hno
    have h0 := hno 0 (by simp)
    simp only [List.take_zero, List.sum_nil, Nat.add_zero, List.getD_cons_zero] at h0
    have hp : ¬ (sliceSized xs idx (idx + m)).isEmpty = true := by
      rw [List.isEmpty_iff, sliceSized_eq_take, List.take_eq_nil_iff,
        List.drop_eq_nil_iff]
      push_neg
      exact ⟨h0.2, by omega⟩
    rw [List.map_cons, List.cons_append]
    have hstep : modeCLoop xs
          (Entry.int m :: (pre.map Entry.int ++ Entry.other :: rest)) idx =
        ((sliceSized xs idx (idx + m)) ::
            (modeCLoop xs (pre.map Entry.int ++ Entry.other :: rest) (idx + m)).1,
          (modeCLoop xs (pre.map Entry.int ++ Entry.other :: rest) (idx + m)).2) := by
      simp [modeCLoop, hp]
    rw [hstep]
    refine ih rest (idx + m) ?_
    intro j hj
    have hsucc := hno (j + 1) (by simpa using hj)
    rw [List.take_succ_cons, List.sum_cons, List.getD_cons_succ] at hsucc
    exact ⟨by omega, hsucc.2⟩

theorem modeCLoop_other_tooFew {α : Type} (xs : List α) :
    ∀ (pre : List Nat) (rest : List Entry) (idx : Nat),
      (∃ j, j < pre.length ∧ (xs.length ≤ idx + (pre.take j).sum ∨ pre.getD j 0 = 0)) →
      (modeCLoop xs (pre.map Entry.int ++ Entry.other :: rest) idx).2 =
        some (.valueErr tooFewMsg) := by
  intro pre
  induction pre with
  | nil =>
    rintro rest idx ⟨j, hj, _⟩
    exact absurd hj (by simp)
  | cons m pre ih =>
    rintro rest idx ⟨j, hj, hc⟩
    rw [List.map_cons, List.cons_append]
    by_cases hp : (sliceSized xs idx (idx + m)).isEmpty
    · simp [modeCLoop, hp]
    · have hnem : ¬ (m = 0 ∨ xs.length ≤ idx) := by
        intro hor
        refine hp ?_
        rw [List.isEmpty_iff, sliceSized_eq_take, List.take_eq_nil_iff,
          List.drop_eq_nil_iff]
        tauto
      push_neg at hnem
      have hstep : modeCLoop xs
            (Entry.int m :: (pre.map Entry.int ++ Entry.other :: rest)) idx =
          ((sliceSized xs idx (idx + m)) ::
              (modeCLoop xs (pre.map Entry.int ++ Entry.other :: rest) (idx + m)).1,
            (modeCLoop xs (pre.map Entry.int ++ Entry.other :: rest) (idx + m)).2) := by
        simp [modeCLoop, hp]
      rw [hstep]
      cases j with
      | zero =>
        exfalso
        rcases hc with hc | hc
        · simp only [List.take_zero, List.sum_nil, Nat.add_zero] at hc
          omega
        · rw [List.getD_cons_zero] at hc
          exact hnem.1 hc
      | succ j =>
        refine ih rest (idx + m) ⟨j, by simpa using hj, ?_⟩
        rcases hc with hc | hc
        · left
          rw [List.take_succ_cons, List.sum_cons] at hc
          omega
        · right
          rw [List.getD_cons_succ] at hc
          exact hc

/-! Mode D with a single integer length: shape of the produced slices. -/

theorem pyRangeFuel_stop (stop step fuel i : Nat) (h : stop ≤ i) :
    pyRangeFuel stop step fuel i = [] := by
  cases fuel with
  | zero => rfl
  | succ f => simp [pyRangeFuel, Nat.not_lt.mpr h]

theorem modeD_range_spec {α : Type} (xs : List α) (lN : Nat) (_hl : 0 < lN) :
    ∀ m i fuel : Nat, 1 ≤ m → m ≤ fuel →
      i + lN * (m - 1) < xs.length → xs.length ≤ i + lN * m →
      ((pyRangeFuel xs.length lN fuel i).map (fun j => pySlice xs j (j + lN))).length = m ∧
      ((pyRangeFuel xs.length lN fuel i).map (fun j => pySlice xs j (j + lN))).map
          List.length = List.replicate (m - 1) lN ++ [xs.length - i - lN * (m - 1)] ∧
      ((pyRangeFuel xs.length lN fuel i).map (fun j => pySlice xs j (j + lN))).flatten =
        xs.drop i := by
  intro m
  induction m with
  | zero =>
    intro i fuel h1
    omega
  | succ s ih =>
    intro i fuel _ hfuel hlow hhigh
    obtain ⟨f, hf⟩ : ∃ f, fuel = f + 1 := ⟨fuel - 1, by omega⟩
    subst hf
    cases s with
    | zero =>
      have hi : i < xs.length := by
        have h0 : lN * (1 - 1) = 0 := by norm_num
        omega
      have hrange : pyRangeFuel xs.length lN (f + 1) i = [i] := by
        rw [pyRangeFuel, if_pos hi, pyRangeFuel_stop _ _ _ _ (by
          have h0 : lN * 1 = lN := by ring
          omega)]
      rw [hrange]
      have hpart : pySlice xs i (i + lN) = xs.drop i := by
        rw [pySlice_eq_take]
        refine List.take_of_length_le ?_
        rw [List.length_drop]
        have h0 : lN * 1 = lN := by ring
        omega
      simp only [List.map_cons, List.map_nil, hpart, List.length_drop]
      refine ⟨rfl, ?_, by simp⟩
      have h01 : (0 : Nat) + 1 - 1 = 0 := rfl
      rw [h01, List.replicate_zero, List.nil_append]
      have h02 : xs.length - i - lN * 0 = xs.length - i := by omega
      rw [h02]
    | succ t =>
      have e1 : t + 1 + 1 - 1 = t + 1 := by omega
      have e2 : t + 1 - 1 = t := by omega
      have hm2 : lN * (t + 1) = lN * t + lN := by ring
      have hm3 : lN * (t + 1 + 1) = lN * (t + 1) + lN := by ring
      rw [e1] at hlow
      have hlN1 : lN ≤ lN * (t + 1) := Nat.le_mul_of_pos_right lN (by omega)
      have hi : i < xs.length := by omega
      have hilN : i + lN ≤ xs.length := by omega
      have hrange : pyRangeFuel xs.length lN (f + 1) i =
          i :: pyRangeFuel xs.length lN f (i + lN) := by
        rw [pyRangeFuel, if_pos hi]
      obtain ⟨rlen, rmap, rflat⟩ := ih (i + lN) f (by omega) (by omega)
        (by rw [e2]; omega) (by omega)
      rw [e2] at rmap
      have hpartlen : (pySlice xs i (i + lN)).length = lN := by
        rw [pySlice_eq_take, List.length_take, List.length_drop]
        omega
      rw [hrange]
      simp only [List.map_cons, List.length_cons, List.flatten_cons]
      refine ⟨by rw [rlen], ?_, ?_⟩
      · rw [hpartlen, rmap, e1, List.replicate_succ, List.cons_append]
        have hAB : xs.length - (i + lN) - lN * t = xs.length - i - lN * (t + 1) := by
          omega
        rw [hAB]
      · rw [rflat, pySlice_eq_take]
        have h5 : xs.drop (i + lN) = (xs.drop i).drop lN := by rw [List.drop_drop]
        rw [h5, List.take_append_drop]

/-! Mode D with a list of lengths: shape of the produced slices. -/

theorem modeDListLoop_spec {α : Type} (xs : List α) :
    ∀ (L : List Nat) (idx : Nat), L ≠ [] →
      idx + L.dropLast.sum < xs.length → xs.length ≤ idx + L.sum →
      (modeDListLoop xs L idx).length = L.length ∧
      (modeDListLoop xs L idx).map List.length =
        L.dropLast ++ [xs.length - idx - L.dropLast.sum] ∧
      (modeDListLoop xs L idx).flatten = xs.drop idx := by
  intro L
  induction L with
  | nil =>
    intro idx hne
    exact absurd rfl hne
  | cons m rest ih =>
    intro idx _ hlow hhigh
    by_cases hr : rest = []
    · subst hr
      simp only [List.dropLast_single, List.sum_nil, Nat.add_zero] at hlow
      simp only [List.sum_cons, List.sum_nil, Nat.add_zero] at hhigh
      have hpart : sliceSized xs idx (idx + m) = xs.drop idx := by
        rw [sliceSized_eq_take]
        refine List.take_of_length_le ?_
        rw [List.length_drop]
        omega
      simp only [modeDListLoop, hpart]
      refine ⟨rfl, ?_, by simp⟩
      have hd : ([m] : List Nat).dropLast = [] := rfl
      rw [hd, List.map_cons, List.map_nil, List.length_drop, List.nil_append]
      have hz : xs.length - idx - ([] : List Nat).sum = xs.length - idx := by simp
      rw [hz]
    · have hdl : (m :: rest).dropLast = m :: rest.dropLast :=
        List.dropLast_cons_of_ne_nil hr
      rw [hdl, List.sum_cons] at hlow
      rw [List.sum_cons] at hhigh
      have himn : idx + m ≤ xs.length := by omega
      have hpartlen : (sliceSized xs idx (idx + m)).length = m := by
        rw [sliceSized_eq_take, List.length_take, List.length_drop]
        omega
      obtain ⟨rlen, rmap, rflat⟩ := ih (idx + m) hr (by omega) (by omega)
      simp only [modeDListLoop]
      refine ⟨by simp [rlen], ?_, ?_⟩
      · rw [List.map_cons, hpartlen, rmap, hdl, List.sum_cons, List.cons_append]
        have hAB : xs.length - (idx + m) - rest.dropLast.sum =
            xs.length - idx - (m + rest.dropLast.sum) := by omega
        rw [hAB]
      · rw [List.flatten_cons, rflat, sliceSized_eq_take]
        have h5 : xs.drop (idx + m) = (xs.drop idx).drop m := by rw [List.drop_drop]
        rw [h5, List.take_append_drop]

/-! Bridging mode D with a single length from the Int feasibility test to the
Nat shape facts. -/

theorem modeDInt_cases {α : Type} (xs : List α) (n l : Int) :
    (modeDInt xs n l = .error (.valueErr (cannotMsg n l)) ∧
      ((xs.length : Int) > max 1 l * n ∨ (xs.length : Int) ≤ max 1 l * (n - 1))) ∨
    (modeDInt xs n l =
      .ok ((pyRange xs.length (max 1 l).toNat).map
        (fun i => pySlice xs i (i + (max 1 l).toNat))) ∧
      ¬ ((xs.length : Int) > max 1 l * n ∨ (xs.length : Int) ≤ max 1 l * (n - 1))) := by
  by_cases hc : (xs.length : Int) > max 1 l * n ∨ (xs.length : Int) ≤ max 1 l * (n - 1)
  · exact Or.inl ⟨by simp [modeDInt, hc], hc⟩
  · exact Or.inr ⟨by simp [modeDInt, hc], hc⟩

theorem modeDInt_ok_spec {α : Type} (xs : List α) (n l : Int) (ps : List (List α))
    (h : modeDInt xs n l = .ok ps) :
    (ps.length : Int) = n ∧ ps.flatten = xs ∧
    (1 ≤ n →
      ps.map List.length =
        List.replicate (n.toNat - 1) (max 1 l).toNat ++
          [xs.length - (max 1 l).toNat * (n.toNat - 1)] ∧
      (xs.length - (max 1 l).toNat * (n.toNat - 1) < (max 1 l).toNat ↔
        (xs.length : Int) < max 1 l * n)) := by
  rcases modeDInt_cases xs n l with ⟨he, _⟩ | ⟨hok, hc⟩
  · rw [he] at h
    cases h
  · have hX : (pyRange xs.length (max 1 l).toNat).map
        (fun i => pySlice xs i (i + (max 1 l).toNat)) = ps :=
      Except.ok.inj (hok.symm.trans h)
    push_neg at hc
    obtain ⟨hc1, hc2⟩ := hc
    have hl1 : (1 : Int) ≤ max 1 l := le_max_left _ _
    have hn0 : 0 ≤ n := by
      by_contra hneg
      push_neg at hneg
      have h8 : max 1 l * n ≤ max 1 l * (-1) :=
        mul_le_mul_of_nonneg_left (by omega) (by omega)
      have h9 : max 1 l * (-1) = -(max 1 l) := by ring
      omega
    rcases eq_or_lt_of_le hn0 with hn00 | hn1
    · have h9 : max 1 l * n = 0 := by rw [← hn00]; ring
      have hlen0 : xs.length = 0 := by omega
      have hxs : xs = [] := List.length_eq_zero.mp hlen0
      have hps : ps = [] := by
        rw [← hX, hxs]
        rfl
      subst hps
      refine ⟨by simp [← hn00], by rw [hxs]; rfl, ?_⟩
      intro hge
      omega
    · have hnN1 : 1 ≤ n.toNat := by omega
      have hnn : ((n.toNat : Nat) : Int) = n := Int.toNat_of_nonneg hn0
      have hln : (((max 1 l).toNat : Nat) : Int) = max 1 l := Int.toNat_of_nonneg (by omega)
      have hcast1 : (((max 1 l).toNat * (n.toNat - 1) : Nat) : Int) = max 1 l * (n - 1) := by
        rw [Nat.cast_mul, Nat.cast_sub hnN1, Nat.cast_one, hln, hnn]
      have hcast2 : (((max 1 l).toNat * n.toNat : Nat) : Int) = max 1 l * n := by
        rw [Nat.cast_mul, hln, hnn]
      have hnat1 : (max 1 l).toNat * (n.toNat - 1) < xs.length := by
        have h7 := hc2
        rw [← hcast1] at h7
        exact_mod_cast h7
      have hnat2 : xs.length ≤ (max 1 l).toNat * n.toNat := by
        have h7 := hc1
        rw [← hcast2] at h7
        exact_mod_cast h7
      have hlNpos : 0 < (max 1 l).toNat := by omega
      have hfuel : n.toNat ≤ xs.length := by
        have h6 : n.toNat - 1 ≤ (max 1 l).toNat * (n.toNat - 1) :=
          Nat.le_mul_of_pos_left _ hlNpos
        omega
      obtain ⟨slen, smap, sflat⟩ := modeD_range_spec xs (max 1 l).toNat hlNpos
        n.toNat 0 xs.length hnN1 hfuel (by omega) (by omega)
      have hpr : pyRange xs.length (max 1 l).toNat =
          pyRangeFuel xs.length (max 1 l).toNat xs.length 0 := rfl
      rw [← hpr] at slen smap sflat
      rw [hX] at slen smap sflat
      refine ⟨by rw [slen, hnn], by rw [sflat, List.drop_zero], ?_⟩
      intro _
      have h0s : xs.length - 0 - (max 1 l).toNat * (n.toNat - 1) =
          xs.length - (max 1 l).toNat * (n.toNat - 1) := by omega
      rw [h0s] at smap
      refine ⟨smap, ?_⟩
      have hsplit : (max 1 l).toNat * n.toNat =
          (max 1 l).toNat * (n.toNat - 1) + (max 1 l).toNat := by
        have h9 : n.toNat - 1 + 1 = n.toNat := by omega
        calc (max 1 l).toNat * n.toNat
            = (max 1 l).toNat * (n.toNat - 1 + 1) := by rw [h9]
          _ = (max 1 l).toNat * (n.toNat - 1) + (max 1 l).toNat := by ring
      constructor
      · intro hlt
        have h7 : xs.length < (max 1 l).toNat * n.toNat := by omega
        have h8 : ((xs.length : Nat) : Int) < (((max 1 l).toNat * n.toNat : Nat) : Int) := by
          exact_mod_cast h7
        rw [hcast2] at h8
        exact h8
      · intro hlt
        have h8 : ((xs.length : Nat) : Int) < (((max 1 l).toNat * n.toNat : Nat) : Int) := by
          rw [hcast2]
          exact hlt
        have h7 : xs.length < (max 1 l).toNat * n.toNat := by exact_mod_cast h8
        omega

/-! Helper lemmas for the product partitioner. -/

theorem pyProduct_append {α : Type} (A B : List (List α)) :
    pyProduct (A ++ B) =
      (pyProduct A).flatMap (fun p => (pyProduct B).map (fun s => p ++ s)) := by
  induction A with
  | nil => simp [pyProduct]
  | cons f A ih =>
    show (f.flatMap fun x => List.map (fun t => x :: t) (pyProduct (A ++ B))) =
        ((f.flatMap fun x => List.map (fun t => x :: t) (pyProduct A)).flatMap
          fun p => List.map (fun s => p ++ s) (pyProduct B))
    rw [ih, List.flatMap_assoc]
    apply congrArg
    funext x
    rw [List.flatMap_map, List.map_flatMap]
    apply congrArg
    funext a
    rw [List.map_map]
    apply List.map_congr_left
    intro s _
    simp

theorem pyProduct_length {α : Type} (fs : List (List α)) :
    (pyProduct fs).length = (fs.map List.length).prod := by
  induction fs with
  | nil => rfl
  | cons f fs ih =>
    simp only [pyProduct, List.length_flatMap, List.map_cons, List.prod_cons]
    have h1 : List.map (List.length ∘ fun x => (pyProduct fs).map (fun t => x :: t)) f =
        List.replicate f.length (pyProduct fs).length := by
      rw [← List.map_const']
      apply List.map_congr_left
      intro x _
      simp
    rw [h1, List.sum_replicate, smul_eq_mul, ih]

theorem pyProduct_nodup {α : Type} (fs : List (List α)) (h : ∀ f ∈ fs, f.Nodup) :
    (pyProduct fs).Nodup := by
  induction fs with
  | nil => simp [pyProduct]
  | cons f fs ih =>
    simp only [pyProduct]
    rw [List.nodup_flatMap]
    refine ⟨?_, ?_⟩
    · intro x _
      refine List.Nodup.map ?_ (ih (fun g hg => h g (List.mem_cons_of_mem _ hg)))
      intro a b hab
      simpa using hab
    · have hf : f.Nodup := h f (List.mem_cons_self _ _)
      refine hf.imp ?_
      intro a b hne t hta htb
      obtain ⟨t1, _, ht1⟩ := List.mem_map.mp hta
      obtain ⟨t2, _, ht2⟩ := List.mem_map.mp htb
      have h12 : a :: t1 = b :: t2 := ht1.trans ht2.symm
      have hab : a = b ∧ t1 = t2 := by simpa using h12
      exact hne hab.1

theorem flatten_map_flatMap {β γ : Type} (cs : List (List β)) (g : β → List γ) :
    (cs.map (fun c => c.flatMap g)).flatten = cs.flatten.flatMap g := by
  induction cs with
  | nil => rfl
  | cons c cs ih => simp [ih, List.flatMap_append]

theorem nodup_flatten_pairwise {α : Type} (ps : List (List α)) (h : ps.flatten.Nodup) :
    ps.Pairwise (fun a b => ∀ t ∈ a, t ∉ b) := by
  induction ps with
  | nil => exact List.Pairwise.nil
  | cons a ps ih =>
    rw [List.flatten_cons, List.nodup_append] at h
    obtain ⟨_, h2, h3⟩ := h
    refine List.Pairwise.cons ?_ (ih h2)
    intro b hb t hta htb
    exact h3 hta (List.mem_flatten.mpr ⟨b, hb, htb⟩)

theorem prefixIndexLoop_spec {α : Type} (number : Nat) :
    ∀ (fs : List (List α)) (acc i flen : Nat), flen = i + fs.length →
      prefixIndexLoop number flen fs acc i ≤ flen ∧
        (prefixIndexLoop number flen fs acc i = flen ∨
          ∃ j, j ≤ fs.length ∧ prefixIndexLoop number flen fs acc i = i + j ∧
            number ≤ acc * ((fs.take j).map List.length).prod) := by
  intro fs
  induction fs with
  | nil =>
    intro acc i flen hf
    subst hf
    simp [prefixIndexLoop]
  | cons a rest ih =>
    intro acc i flen hf
    simp only [prefixIndexLoop]
    by_cases hb : number ≤ acc * a.length
    · rw [if_pos hb]
      have hle : i + 1 ≤ flen := by
        subst hf
        simp only [List.length_cons]
        omega
      have hmin : min flen (i + 1) = i + 1 := Nat.min_eq_right hle
      rw [hmin]
      refine ⟨hle, Or.inr ⟨1, by simp, rfl, ?_⟩⟩
      simpa using hb
    · rw [if_neg hb]
      obtain ⟨h1, h2⟩ := ih (acc * a.length) (i + 1) flen (by
        subst hf
        simp only [List.length_cons]
        omega)
      refine ⟨h1, ?_⟩
      rcases h2 with h2 | ⟨j, hj, hr, hnum⟩
      · exact Or.inl h2
      · refine Or.inr ⟨j + 1, by simpa using hj, by rw [hr]; omega, ?_⟩
        rw [List.take_succ_cons, List.map_cons, List.prod_cons, ← Nat.mul_assoc]
        exact hnum

theorem prod_lengths_pos {α : Type} (fs : List (List α)) (h : ∀ f ∈ fs, f ≠ []) :
    1 ≤ (fs.map List.length).prod := by
  induction fs with
  | nil => simp
  | cons f fs ih =>
    rw [List.map_cons, List.prod_cons]
    have hf : 1 ≤ f.length := List.length_pos.mpr (h f (List.mem_cons_self _ _))
    have hr := ih (fun g hg => h g (List.mem_cons_of_mem _ hg))
    have := Nat.mul_le_mul hf hr
    simpa using this

theorem clamp_eq_min (P number : Nat) (hP : 1 ≤ P) (hn : 1 ≤ number) :
    (max 1 (min (P : Int) (number : Int))).toNat = min P number := by
  rcases le_total (P : Int) (number : Int) with h | h
  · rw [min_eq_left h, max_eq_right (by exact_mod_cast hP)]
    have h2 : min P number = P := Nat.min_eq_left (by exact_mod_cast h)
    omega
  · rw [min_eq_right h, max_eq_right (by exact_mod_cast hn)]
    have h2 : min P number = number := Nat.min_eq_right (by exact_mod_cast h)
    omega

theorem products_flatten {α : Type} (factors : List (List α)) (number : Nat) :
    (products factors number).flatten = pyProduct factors := by
  by_cases h1 : number = 1
  · simp [products, h1]
  · simp only [products, if_neg h1]
    rw [flatten_map_flatMap, partsNumber_flatten, ← pyProduct_append,
      List.take_append_drop]

theorem products_length_min {α : Type} (factors : List (List α)) (number : Nat)
    (h1 : 1 ≤ number) (hne : ∀ f ∈ factors, f ≠ []) :
    (products factors number).length = min number ((factors.map List.length).prod) := by
  have hT : 1 ≤ (factors.map List.length).prod := prod_lengths_pos factors hne
  by_cases hn1 : number = 1
  · subst hn1
    rw [show (products factors 1).length = 1 from by simp [products]]
    rw [Nat.min_eq_left hT]
  · simp only [products, if_neg hn1]
    rw [List.length_map]
    have hPtake : 1 ≤ ((factors.take (prefixIndex factors number)).map List.length).prod :=
      prod_lengths_pos _ (fun g hg => hne g (List.mem_of_mem_take hg))
    have hplen : (pyProduct (factors.take (prefixIndex factors number))).length =
        ((factors.take (prefixIndex factors number)).map List.length).prod :=
      pyProduct_length _
    have hnn : pyProduct (factors.take (prefixIndex factors number)) ≠ [] :=
      List.ne_nil_of_length_pos (by omega)
    have hcount := (partsNumber_spec _ (number : Int) hnn).1
    rw [hcount, hplen, clamp_eq_min _ _ hPtake h1]
    have hsplit : (factors.map List.length).prod =
        ((factors.take (prefixIndex factors number)).map List.length).prod *
          ((factors.drop (prefixIndex factors number)).map List.length).prod := by
      rw [← List.prod_append, ← List.map_append, List.take_append_drop]
    have hPdrop : 1 ≤ ((factors.drop (prefixIndex factors number)).map List.length).prod :=
      prod_lengths_pos _ (fun g hg => hne g (List.mem_of_mem_drop hg))
    obtain ⟨hle, hcases⟩ :=
      prefixIndexLoop_spec (α := α) number factors 1 0 factors.length (by omega)
    rcases hcases with hidx | ⟨j, _, hidx, hnum⟩
    · have htk : factors.take (prefixIndex factors number) = factors := by
        rw [show prefixIndex factors number = factors.length from hidx, List.take_length]
      rw [htk]
      exact Nat.min_comm _ _
    · have hidx0 : prefixIndex factors number = j := by
        rw [show prefixIndex factors number =
          prefixIndexLoop number factors.length factors 1 0 from rfl, hidx]
        omega
      rw [one_mul] at hnum
      rw [hidx0] at hsplit hPtake hPdrop ⊢
      have hmono : ((factors.take j).map List.length).prod ≤
          (factors.map List.length).prod := by
        rw [hsplit]
        exact Nat.le_mul_of_pos_right _ (by omega)
      rw [Nat.min_eq_right hnum, Nat.min_eq_left (le_trans hnum hmono)]

/-! Small bridging lemmas for the dispatcher. -/

theorem entries_roundtrip (L : List Nat) :
    (L.map Entry.int).filterMap (fun e => match e with
      | .int m => some m
      | .other => none) = L := by
  induction L with
  | nil => rfl
  | cons n L ih => simp [ih]

theorem entries_no_other (L : List Nat) : (L.map Entry.int).any Entry.isOther = false := by
  induction L with
  | nil => rfl
  | cons n L ih => simp [Entry.isOther, ih]

theorem modeDList_ok_spec {α : Type} (xs : List α) (n : Int) (L : List Nat)
    (ps : List (List α)) (h : modeDList xs n L = .ok ps) :
    ps.length = L.length ∧
    ps.map List.length = L.dropLast ++ [xs.length - L.dropLast.sum] ∧
    ps.flatten = xs := by
  unfold modeDList at h
  by_cases h1 : (L.length : Int) ≠ n
  · rw [if_pos h1] at h
    cases h
  rw [if_neg h1] at h
  by_cases h2 : xs.length ≤ L.dropLast.sum
  · rw [if_pos h2] at h
    cases h
  rw [if_neg h2] at h
  by_cases h3 : L.sum < xs.length
  · rw [if_pos h3] at h
    cases h
  rw [if_neg h3] at h
  have hps : modeDListLoop xs L 0 = ps := Except.ok.inj h
  push_neg at h2 h3
  have hLne : L ≠ [] := by
    intro hL
    subst hL
    simp only [List.dropLast_nil, List.sum_nil] at h2 h3
    omega
  obtain ⟨slen, smap, sflat⟩ := modeDListLoop_spec xs L 0 hLne (by omega) (by omega)
  rw [hps] at slen smap sflat
  refine ⟨slen, ?_, by rw [sflat, List.drop_zero]⟩
  rw [smap]
  have h0 : xs.length - 0 - L.dropLast.sum = xs.length - L.dropLast.sum := by omega
  rw [h0]

theorem partsNumber_singleton {α : Type} (x : α) (k : Int) :
    partsNumber [x] k = [[x]] := by
  rw [partsNumber_eq]
  have hN : (max 1 (min (([x] : List α).length : Int) k)).toNat = 1 := by
    have hm : min (([x] : List α).length : Int) k ≤ 1 := by
      have h1 := min_le_left (([x] : List α).length : Int) k
      simp only [List.length_cons, List.length_nil, Nat.cast_one] at h1
      exact h1
    rw [max_eq_left hm]
    rfl
  rw [hN]
  rfl

theorem modeCLoop_int_err {α : Type} (xs : List α) :
    ∀ (L : List Nat) (idx : Nat),
      (modeCLoop xs (L.map Entry.int) idx).2 = none ∨
      (modeCLoop xs (L.map Entry.int) idx).2 = some (.valueErr tooFewMsg) := by
  intro L
  induction L with
  | nil =>
    intro idx
    exact Or.inl rfl
  | cons m rest ih =>
    intro idx
    rw [List.map_cons]
    by_cases hp : (sliceSized xs idx (idx + m)).isEmpty
    · right
      simp [modeCLoop, hp]
    · have hstep : (modeCLoop xs (Entry.int m :: rest.map Entry.int) idx).2 =
          (modeCLoop xs (rest.map Entry.int) (idx + m)).2 := by
        simp [modeCLoop, hp]
      rw [hstep]
      exact ih (idx + m)

/-! Claim theorems. -/

/-- C2: for every sized-sliceable input xs with at least one element and every
integer k, parts(xs, number=k) with no length raises no error and yields
exactly max(1, min(len(xs), k)) non-empty parts (so k above len(xs) behaves
as k = len(xs) and k below 1 behaves as k = 1); no two produced parts differ
in length by more than one element, and every earlier part is no longer than
any later part. -/
theorem claim_C2 : ∀ (α : Type) (xs : List α) (k : Int), xs ≠ [] →
    (partsCall (.sized xs) (.intN k) .noneL).2 = none ∧
    (((partsCall (.sized xs) (.intN k) .noneL).1.length : Int) =
      max 1 (min (xs.length : Int) k)) ∧
    (∀ p ∈ (partsCall (.sized xs) (.intN k) .noneL).1, p ≠ []) ∧
    List.Pairwise (fun p q => p.length ≤ q.length ∧ q.length ≤ p.length + 1)
      (partsCall (.sized xs) (.intN k) .noneL).1 := by
  intro α xs k hne
  obtain ⟨hlen, _, hnonv, hpw⟩ := partsNumber_spec xs k hne
  have hcall : partsCall (.sized xs) (.intN k) .noneL = (partsNumber xs k, none) := rfl
  rw [hcall]
  have hpos : (0 : Int) ≤ max 1 (min (xs.length : Int) k) :=
    le_trans (by omega) (le_max_left _ _)
  refine ⟨rfl, ?_, hnonv, hpw⟩
  rw [hlen]
  exact Int.toNat_of_nonneg hpos

theorem claim_C2_witness :
    (partsCall (.sized ([1, 2, 3, 4, 5, 6, 7] : List ℕ)) (.intN 3) .noneL).2 = none ∧
    (((partsCall (.sized ([1, 2, 3, 4, 5, 6, 7] : List ℕ)) (.intN 3) .noneL).1.length : Int) =
      max 1 (min ((([1, 2, 3, 4, 5, 6, 7] : List ℕ).length : Int)) 3)) ∧
    (∀ p ∈ (partsCall (.sized ([1, 2, 3, 4, 5, 6, 7] : List ℕ)) (.intN 3) .noneL).1,
      p ≠ []) ∧
    List.Pairwise (fun p q => p.length ≤ q.length ∧ q.length ≤ p.length + 1)
      (partsCall (.sized ([1, 2, 3, 4, 5, 6, 7] : List ℕ)) (.intN 3) .noneL).1 :=
  claim_C2 ℕ [1, 2, 3, 4, 5, 6, 7] 3 (by decide)

/-- C5: for a sized input xs, integer count n and single integer length l, with
the clamped length max(1, l), the combined mode raises the
unsatisfiable-count-length error exactly when len(xs) exceeds clamped*n or
len(xs) is at most clamped*(n-1); otherwise it yields exactly n contiguous
slices covering xs, each of the clamped length except the final slice, which
has length len(xs) - clamped*(n-1) and is shorter than the clamped length
exactly when clamped*n overshoots len(xs). -/
theorem claim_C5 : ∀ (α : Type) (xs : List α) (n l : Int),
    (modeDInt xs n l = .error (.valueErr (cannotMsg n l)) ↔
      ((xs.length : Int) > max 1 l * n ∨ (xs.length : Int) ≤ max 1 l * (n - 1))) ∧
    (∀ ps, modeDInt xs n l = .ok ps →
      (ps.length : Int) = n ∧ ps.flatten = xs ∧
      (1 ≤ n →
        ps.map List.length =
          List.replicate (n.toNat - 1) (max 1 l).toNat ++
            [xs.length - (max 1 l).toNat * (n.toNat - 1)] ∧
        (xs.length - (max 1 l).toNat * (n.toNat - 1) < (max 1 l).toNat ↔
          (xs.length : Int) < max 1 l * n))) := by
  intro α xs n l
  constructor
  · rcases modeDInt_cases xs n l with ⟨he, hc⟩ | ⟨hok, hc⟩
    · exact iff_of_true he hc
    · refine iff_of_false ?_ hc
      intro hee
      rw [hok] at hee
      cases hee
  · intro ps hps
    exact modeDInt_ok_spec xs n l ps hps

theorem claim_C5_witness :
    ([[1, 2], [3, 4], [5, 6], [7]] : List (List ℕ)).map List.length =
      List.replicate ((4 : Int).toNat - 1) (max 1 (2 : Int)).toNat ++
        [([1, 2, 3, 4, 5, 6, 7] : List ℕ).length -
          (max 1 (2 : Int)).toNat * ((4 : Int).toNat - 1)] :=
  (((claim_C5 ℕ [1, 2, 3, 4, 5, 6, 7] 4 2).2 [[1, 2], [3, 4], [5, 6], [7]]
    (by rfl)).2.2 (by decide)).1

/-- C8: for a sized input xs, integer count n and list L of whole-number
lengths, the combined mode raises count-length-mismatch when L has other than
n entries; otherwise insufficient-elements when the sum of all entries but
the last fails to stay strictly below len(xs); otherwise excess-elements when
the sum of all entries stays strictly below len(xs); otherwise it yields
len(L) slices whose lengths follow L in order, with the final slice truncated
at the input's end, covering xs. -/
theorem claim_C8 : ∀ (α : Type) (xs : List α) (n : Int) (L : List Nat),
    ((L.length : Int) ≠ n → modeDList xs n L = .error (.valueErr mismatchMsg)) ∧
    ((L.length : Int) = n → xs.length ≤ L.dropLast.sum →
      modeDList xs n L = .error (.valueErr tooFewMsg)) ∧
    ((L.length : Int) = n → L.dropLast.sum < xs.length → L.sum < xs.length →
      modeDList xs n L = .error (.valueErr tooManyMsg)) ∧
    ((L.length : Int) = n → L.dropLast.sum < xs.length → xs.length ≤ L.sum →
      ∃ ps, modeDList xs n L = .ok ps ∧ ps.length = L.length ∧
        ps.map List.length = L.dropLast ++ [xs.length - L.dropLast.sum] ∧
        ps.flatten = xs) := by
  intro α xs n L
  refine ⟨?_, ?_, ?_, ?_⟩
  · intro h1
    simp [modeDList, h1]
  · intro h1 h2
    rw [modeDList, if_neg (by omega), if_pos h2]
  · intro h1 h2 h3
    rw [modeDList, if_neg (by omega), if_neg (by omega), if_pos h3]
  · intro h1 h2 h3
    have hok : modeDList xs n L = .ok (modeDListLoop xs L 0) := by
      rw [modeDList, if_neg (by omega), if_neg (by omega), if_neg (by omega)]
    obtain ⟨hl, hm, hf⟩ := modeDList_ok_spec xs n L _ hok
    exact ⟨_, hok, hl, hm, hf⟩

theorem claim_C8_witness :
    ∃ ps, modeDList ([1, 2, 3, 4, 5, 6] : List ℕ) 3 [2, 2, 2] = .ok ps ∧
      ps.length = ([2, 2, 2] : List Nat).length ∧
      ps.map List.length = ([2, 2, 2] : List Nat).dropLast ++
        [([1, 2, 3, 4, 5, 6] : List ℕ).length - ([2, 2, 2] : List Nat).dropLast.sum] ∧
      ps.flatten = [1, 2, 3, 4, 5, 6] :=
  (claim_C8 ℕ [1, 2, 3, 4, 5, 6] 3 [2, 2, 2]).2.2.2 (by decide) (by decide) (by decide)

/-- C9: for every pull-only input, the emptiness probe returns a reconstituted
cursor and a flag such that the flag is true exactly when the input is
exhausted, and the sequence of elements obtainable from the reconstituted
cursor is the sequence that was obtainable before the probe, so the caller
observes no side effect from the probe. -/
theorem claim_C9 : ∀ (α : Type) (xs : List α),
    ((emptyPull xs).2 = true ↔ xs = []) ∧ (emptyPull xs).1 = xs := by
  intro α xs
  cases xs <;> simp [emptyPull, nextPull]

/-- C10: for every sized-sliceable input with zero elements and every integer
k, parts(input, number=k) with no length yields zero parts and raises no
error, even though the clamped count is at least 1. -/
theorem claim_C10 : ∀ (α : Type) (xs : List α) (k : Int), xs.length = 0 →
    partsCall (.sized xs) (.intN k) .noneL = ([], none) := by
  intro α xs k h
  have hxs : xs = [] := List.length_eq_zero.mp h
  subst hxs
  show (partsNumber ([] : List α) k, none) = ([], none)
  rw [partsNumber_nil]

theorem claim_C10_witness :
    partsCall (.sized ([] : List ℕ)) (.intN 5) .noneL = ([], none) :=
  claim_C10 ℕ [] 5 rfl

/-- C1 counterexample: in the length-list mode with no count, the call
parts([1,2,3], length=[1,1]) completes without any error yet its parts
concatenate to [1,2], not to the whole input: coverage fails although no
explicit error aborted production. -/
theorem claim_C1_counterexample :
    (partsCall (.sized ([1, 2, 3] : List ℕ)) .noneN
      (.listL [Entry.int 1, Entry.int 1])).2 = none ∧
    (partsCall (.sized ([1, 2, 3] : List ℕ)) .noneN
      (.listL [Entry.int 1, Entry.int 1])).1.flatten ≠ [1, 2, 3] := by
  exact ⟨rfl, by decide⟩

/-- C1 amended: concatenating the produced parts in production order
reproduces the sized-sliceable input exactly in the count mode, the
single-length mode, and both combined modes whenever no error is raised; in
the length-list mode with no count, error-free production reproduces exactly
the first sum(L) elements of the input, which is all of it whenever sum(L)
reaches len(xs), but the remaining elements are dropped without error when
sum(L) falls short of len(xs). -/
theorem claim_C1_amended : ∀ (α : Type),
    (∀ (xs : List α) (k : Int),
      partsCall (.sized xs) (.intN k) .noneL =
        ((partsCall (.sized xs) (.intN k) .noneL).1, none) ∧
      (partsCall (.sized xs) (.intN k) .noneL).1.flatten = xs) ∧
    (∀ (xs : List α) (l : Int),
      partsCall (.sized xs) .noneN (.intL l) =
        ((partsCall (.sized xs) .noneN (.intL l)).1, none) ∧
      (partsCall (.sized xs) .noneN (.intL l)).1.flatten = xs) ∧
    (∀ (xs : List α) (L : List Nat),
      (partsCall (.sized xs) .noneN (.listL (L.map Entry.int))).2 = none →
      (partsCall (.sized xs) .noneN (.listL (L.map Entry.int))).1.flatten =
        xs.take L.sum ∧
      (xs.length ≤ L.sum →
        (partsCall (.sized xs) .noneN (.listL (L.map Entry.int))).1.flatten = xs)) ∧
    (∀ (xs : List α) (n l : Int),
      (partsCall (.sized xs) (.intN n) (.intL l)).2 = none →
      (partsCall (.sized xs) (.intN n) (.intL l)).1.flatten = xs) ∧
    (∀ (xs : List α) (n : Int) (L : List Nat),
      (partsCall (.sized xs) (.intN n) (.listL (L.map Entry.int))).2 = none →
      (partsCall (.sized xs) (.intN n) (.listL (L.map Entry.int))).1.flatten = xs) := by
  intro α
  refine ⟨?_, ?_, ?_, ?_, ?_⟩
  · intro xs k
    exact ⟨rfl, partsNumber_flatten xs k⟩
  · intro xs l
    exact ⟨rfl, partsLen_flatten xs l⟩
  · intro xs L herr
    have hcl : partsCall (.sized xs) .noneN (.listL (L.map Entry.int)) =
        modeCLoop xs (L.map Entry.int) 0 := rfl
    rw [hcl] at herr ⊢
    have hj := modeCLoop_none_flatten xs L 0 herr
    rw [List.drop_zero] at hj
    exact ⟨hj, fun hle => by rw [hj, List.take_of_length_le hle]⟩
  · intro xs n l herr
    have hcl : partsCall (.sized xs) (.intN n) (.intL l) =
        match modeDInt xs n l with
        | .ok ps => (ps, none)
        | .error e => ([], some e) := rfl
    rcases hde : modeDInt xs n l with e | ps
    · rw [hcl, hde] at herr
      cases herr
    · rw [hcl, hde]
      exact (modeDInt_ok_spec xs n l ps hde).2.1
  · intro xs n L herr
    have hcl : partsCall (.sized xs) (.intN n) (.listL (L.map Entry.int)) =
        match modeDList xs n L with
        | .ok ps => (ps, none)
        | .error e => ([], some e) := by
      show (if (L.map Entry.int).any Entry.isOther then ([], some (.typeErr lenListMsg))
        else match modeDList xs n ((L.map Entry.int).filterMap (fun e => match e with
          | .int m => some m
          | .other => none)) with
        | .ok ps => (ps, none)
        | .error e => ([], some e)) = _
      rw [entries_no_other, entries_roundtrip]
      rfl
    rcases hde : modeDList xs n L with e | ps
    · rw [hcl, hde] at herr
      cases herr
    · rw [hcl, hde]
      exact (modeDList_ok_spec xs n L ps hde).2.2

theorem claim_C1_witness :
    (partsCall (.sized ([1, 2, 3] : List ℕ)) .noneN
      (.listL (([2, 2] : List Nat).map Entry.int))).1.flatten =
      ([1, 2, 3] : List ℕ).take ([2, 2] : List Nat).sum ∧
    (([1, 2, 3] : List ℕ).length ≤ ([2, 2] : List Nat).sum →
      (partsCall (.sized ([1, 2, 3] : List ℕ)) .noneN
        (.listL (([2, 2] : List Nat).map Entry.int))).1.flatten = [1, 2, 3]) :=
  (claim_C1_amended ℕ).2.2.1 [1, 2, 3] [2, 2] rfl

/-- C3 counterexample: with a factor holding duplicate elements, the two
partitions of products([1,1], number=2) both contain the tuple (1,), so the
returned iterators are not pairwise disjoint as tuple sets. -/
theorem claim_C3_counterexample :
    products ([[1, 1]] : List (List ℕ)) 2 = [[[1]], [[1]]] ∧
    ¬ List.Pairwise (fun a b => ∀ t ∈ a, t ∉ b)
      (products ([[1, 1]] : List (List ℕ)) 2) := by
  have he : products ([[1, 1]] : List (List ℕ)) 2 = [[[1]], [[1]]] := by decide
  refine ⟨he, ?_⟩
  intro hpw
  rw [he] at hpw
  obtain ⟨hhead, _⟩ := List.pairwise_cons.mp hpw
  exact hhead [[1]] (by simp) [1] (by simp) (by simp)

/-- C3 amended: for every tuple of finite factor collections and every
positive number, the concatenation of the returned partitions in order is
exactly the full Cartesian product in lexicographic (itertools.product)
order, so their union as a multiset is the full product and each partition is
a contiguous chunk of it in order; provided every factor has pairwise
distinct elements, the partitions are also pairwise disjoint as tuple sets;
with zero factors the result is one partition containing exactly the empty
tuple. -/
theorem claim_C3_amended : ∀ (α : Type) (factors : List (List α)) (number : Nat),
    1 ≤ number →
    ((products factors number).flatten = pyProduct factors ∧
     ((∀ f ∈ factors, f.Nodup) →
       List.Pairwise (fun a b => ∀ t ∈ a, t ∉ b) (products factors number)) ∧
     (factors = [] → products factors number = [[[]]])) := by
  intro α factors number hn
  refine ⟨products_flatten factors number, ?_, ?_⟩
  · intro hnd
    refine nodup_flatten_pairwise _ ?_
    rw [products_flatten]
    exact pyProduct_nodup factors hnd
  · intro hf
    subst hf
    by_cases h1 : number = 1
    · simp [products, h1, pyProduct]
    · unfold products
      rw [if_neg h1]
      show (partsNumber (pyProduct (([] : List (List α)).take
          (prefixIndex ([] : List (List α)) number))) (number : Int)).map
        (fun pre => pre.flatMap (fun p =>
          (pyProduct (([] : List (List α)).drop
            (prefixIndex ([] : List (List α)) number))).map (fun s => p ++ s))) = [[[]]]
      rw [List.take_nil, List.drop_nil,
        show pyProduct ([] : List (List α)) = ([[]] : List (List α)) from rfl,
        partsNumber_singleton]
      rfl

theorem claim_C3_witness :
    (products ([[1, 2], [3]] : List (List ℕ)) 2).flatten =
      pyProduct ([[1, 2], [3]] : List (List ℕ)) ∧
    ((∀ f ∈ ([[1, 2], [3]] : List (List ℕ)), f.Nodup) →
      List.Pairwise (fun a b => ∀ t ∈ a, t ∉ b)
        (products ([[1, 2], [3]] : List (List ℕ)) 2)) ∧
    (([[1, 2], [3]] : List (List ℕ)) = [] →
      products ([[1, 2], [3]] : List (List ℕ)) 2 = [[[]]]) :=
  claim_C3_amended ℕ [[1, 2], [3]] 2 (by decide)

/-- C4 counterexample: with the single empty factor, the total product size
is 0, yet products([], number=1) returns one partition (an empty iterator)
rather than min(1, 0) = 0 partitions. -/
theorem claim_C4_counterexample :
    (products [([] : List ℕ)] 1).length = 1 ∧
    min 1 (([([] : List ℕ)].map List.length).prod) = 0 := by
  exact ⟨rfl, rfl⟩

/-- C4 amended: for every tuple of factor collections in which every factor
is nonempty and every positive integer number, products returns exactly
min(number, total product size) partitions, where the total product size is
the product of the factor sizes; in particular requesting more partitions
than the product has elements yields one partition per element rather than
an error.  (With an empty factor the code still returns at least one
partition when number is 1, exceeding the total product size 0.) -/
theorem claim_C4_amended : ∀ (α : Type) (factors : List (List α)) (number : Nat),
    1 ≤ number → (∀ f ∈ factors, f ≠ []) →
    (products factors number).length = min number ((factors.map List.length).prod) :=
  fun _ factors number h1 h2 => products_length_min factors number h1 h2

theorem claim_C4_witness :
    (products ([[1, 2], [3, 4]] : List (List ℕ)) 10).length =
      min 10 ((([[1, 2], [3, 4]] : List (List ℕ)).map List.length).prod) :=
  claim_C4_amended ℕ [[1, 2], [3, 4]] 10 (by decide) (by decide)

/-- C6 counterexample: the call parts([1], length=[1, 1, 2.5]) carries an
invalid-argument-type fault (the length list holds a non-integer entry) and
an unsatisfiable-constraint fault (the whole-number prefix exhausts the
input), yet the raised error is the insufficient-elements ValueError, not a
type error: the lazy per-entry type check of the length-list mode never
reaches the bad entry. -/
theorem claim_C6_counterexample :
    partsCall (.sized ([1] : List ℕ)) .noneN
        (.listL [Entry.int 1, Entry.int 1, Entry.other]) =
      ([[1]], some (.valueErr tooFewMsg)) ∧
    [Entry.int 1, Entry.int 1, Entry.other].any Entry.isOther = true := by
  exact ⟨rfl, rfl⟩

/-- C6 amended: argument-type errors detected before production take priority
over feasibility errors: a non-integer number parameter always raises the
number type error; a length parameter that is neither an integer nor an
iterable always raises the length type error (unless the number type error
fires first); and in the combined mode on a sized input a length list holding
a non-integer entry raises the list type error before any feasibility check.
In the length-list-only mode the entry checks are lazy: the type error for a
non-integer entry is raised exactly when every earlier whole-number entry
probes a nonempty part, so an insufficient-elements error at an earlier
entry can take priority over a later entry's type fault. -/
theorem claim_C6_amended : ∀ (α : Type),
    (∀ (inp : Input α) (length : LengthArg),
      partsCall inp .otherN length = ([], some (.typeErr numberMsg))) ∧
    (∀ (inp : Input α) (number : NumberArg), number ≠ .otherN →
      partsCall inp number .otherL = ([], some (.typeErr lenIterMsg))) ∧
    (∀ (xs : List α) (n : Int) (entries : List Entry),
      entries.any Entry.isOther = true →
      partsCall (.sized xs) (.intN n) (.listL entries) =
        ([], some (.typeErr lenListMsg))) ∧
    (∀ (xs : List α) (pre : List Nat) (rest : List Entry),
      ((partsCall (.sized xs) .noneN
          (.listL (pre.map Entry.int ++ Entry.other :: rest))).2 =
            some (.typeErr lenIterMsg) ↔
        (∀ j, j < pre.length → (pre.take j).sum < xs.length ∧ pre.getD j 0 ≠ 0)) ∧
      ((∃ j, j < pre.length ∧ (xs.length ≤ (pre.take j).sum ∨ pre.getD j 0 = 0)) →
        (partsCall (.sized xs) .noneN
          (.listL (pre.map Entry.int ++ Entry.other :: rest))).2 =
            some (.valueErr tooFewMsg))) := by
  intro α
  refine ⟨?_, ?_, ?_, ?_⟩
  · intro inp length
    cases length <;> rfl
  · intro inp number hne
    cases number with
    | noneN => rfl
    | intN n => rfl
    | otherN => exact absurd rfl hne
  · intro xs n entries hany
    have hcl : partsCall (.sized xs) (.intN n) (.listL entries) =
        (if entries.any Entry.isOther then ([], some (PError.typeErr lenListMsg))
         else match modeDList xs n (entries.filterMap (fun e => match e with
             | .int m => some m
             | .other => none)) with
           | .ok ps => (ps, none)
           | .error e => ([], some e)) := rfl
    rw [hcl, if_pos hany]
  · intro xs pre rest
    have hcl : partsCall (.sized xs) .noneN
        (.listL (pre.map Entry.int ++ Entry.other :: rest)) =
        modeCLoop xs (pre.map Entry.int ++ Entry.other :: rest) 0 := rfl
    rw [hcl]
    constructor
    · by_cases hall : ∀ j, j < pre.length →
          (pre.take j).sum < xs.length ∧ pre.getD j 0 ≠ 0
      · refine iff_of_true ?_ hall
        refine modeCLoop_reach_other xs pre rest 0 ?_
        intro j hj
        obtain ⟨ha, hb⟩ := hall j hj
        exact ⟨by omega, hb⟩
      · refine iff_of_false ?_ hall
        have hex : ∃ j, j < pre.length ∧
            (xs.length ≤ 0 + (pre.take j).sum ∨ pre.getD j 0 = 0) := by
          push_neg at hall
          obtain ⟨j, hj, hcon⟩ := hall
          by_cases hA : (pre.take j).sum < xs.length
          · exact ⟨j, hj, Or.inr (hcon hA)⟩
          · exact ⟨j, hj, Or.inl (by omega)⟩
        rw [modeCLoop_other_tooFew xs pre rest 0 hex]
        simp [tooFewMsg, lenIterMsg]
    · intro hex
      refine modeCLoop_other_tooFew xs pre rest 0 ?_
      obtain ⟨j, hj, hc⟩ := hex
      refine ⟨j, hj, ?_⟩
      rcases hc with hc | hc
      · exact Or.inl (by omega)
      · exact Or.inr hc

theorem claim_C6_witness :
    (partsCall (.sized ([1] : List ℕ)) .noneN
      (.listL (([1, 1] : List Nat).map Entry.int ++ Entry.other :: []))).2 =
        some (.valueErr tooFewMsg) :=
  ((claim_C6_amended ℕ).2.2.2 [1] [1, 1] []).2 ⟨1, by decide, Or.inl (by decide)⟩

/-- C7 counterexample: the call parts([1,2,3], length=[1,1]) has a length
list summing to 2, strictly less than the input length 3, yet it raises no
error at all: it returns the parts [[1],[2]] and silently drops the
remaining element. -/
theorem claim_C7_counterexample :
    partsCall (.sized ([1, 2, 3] : List ℕ)) .noneN
        (.listL (([1, 1] : List Nat).map Entry.int)) = ([[1], [2]], none) ∧
    ([1, 1] : List Nat).sum < ([1, 2, 3] : List ℕ).length := by
  exact ⟨rfl, by decide⟩

/-- C7 amended: in the length-list mode with no count on a sized input and a
list L of whole numbers, the only possible error is insufficient-elements,
and it is raised exactly when some part probes empty while entries remain:
precisely when some position j in L has the sum of the first j entries
already at least len(xs), or a zero entry at j.  In particular
parts([1,2,3], length=[1,1,1,1]) fails, while a list summing to less than
len(xs) with positive entries and all proper prefix sums below len(xs)
completes without error, dropping the uncovered elements. -/
theorem claim_C7_amended : ∀ (α : Type) (xs : List α) (L : List Nat),
    ((partsCall (.sized xs) .noneN (.listL (L.map Entry.int))).2 = none ∨
      (partsCall (.sized xs) .noneN (.listL (L.map Entry.int))).2 =
        some (.valueErr tooFewMsg)) ∧
    ((partsCall (.sized xs) .noneN (.listL (L.map Entry.int))).2 =
        some (.valueErr tooFewMsg) ↔
      ∃ j, j < L.length ∧ (xs.length ≤ (L.take j).sum ∨ L.getD j 0 = 0)) := by
  intro α xs L
  have hcl : partsCall (.sized xs) .noneN (.listL (L.map Entry.int)) =
      modeCLoop xs (L.map Entry.int) 0 := rfl
  rw [hcl]
  refine ⟨modeCLoop_int_err xs L 0, ?_⟩
  rw [modeCLoop_err_iff xs L 0]
  constructor
  · rintro ⟨j, hj, hc⟩
    refine ⟨j, hj, ?_⟩
    rcases hc with hc | hc
    · exact Or.inl (by omega)
    · exact Or.inr hc
  · rintro ⟨j, hj, hc⟩
    refine ⟨j, hj, ?_⟩
    rcases hc with hc | hc
    · exact Or.inl (by omega)
    · exact Or.inr hc

end PartsLib
